import Mathlib

/-!
Verification development for the gene-annotation ingestion and normalization
core of the Helixer preparation code (`annotations.py`).

The Python source is shallowly embedded: every class whose behaviour matters
for the checked claims becomes a structure, every method a pure function with
explicit state passing, and every raised exception an `Except` error value.
Python dicts are modelled as association lists whose order is insertion
order; dict keys are unique.  Python string comparison (used by
`sorted(features.keys())`) is lexicographic by code point, modelled by
`charListLe` below.  Logging calls are ignored (they do not change state).
-/

/-! ## Lexicographic string order (Python `sorted` on `str`) -/

/-- Lexicographic less-or-equal on code-point lists, exactly Python's
string comparison. -/
def charListLe : List Char → List Char → Bool
  | [], _ => true
  | _ :: _, [] => false
  | a :: as, b :: bs =>
    if a.val.toNat < b.val.toNat then true
    else if b.val.toNat < a.val.toNat then false
    else charListLe as bs

/-- Python's `<=` on strings. -/
def strle (a b : String) : Prop := charListLe a.data b.data = true

instance : DecidableRel strle := fun a b => by unfold strle; infer_instance

/-- Python's `sorted` on a list of strings (Timsort is a stable sort; on
strings it is determined by the lexicographic order). -/
def pySorted (l : List String) : List String := List.insertionSort strle l

/-! ## FeatureDecoder (the controlled vocabulary of GFF types) -/

namespace GK

def gene : String := "gene"
def super_gene : String := "super_gene"
def ncRNA_gene : String := "ncRNA_gene"
def pseudogene : String := "pseudogene"
def gene_level : List String := [gene, super_gene, ncRNA_gene, pseudogene]

def mRNA : String := "mRNA"
def tRNA : String := "tRNA"
def rRNA : String := "rRNA"
def miRNA : String := "miRNA"
def snoRNA : String := "snoRNA"
def snRNA : String := "snRNA"
def SRP_RNA : String := "SRP_RNA"
def lnc_RNA : String := "lnc_RNA"
def pre_miRNA : String := "pre_miRNA"
def RNase_MRP_RNA : String := "RNase_MRP_RNA"
def transcript : String := "transcript"
def primary_transcript : String := "primary_transcript"
def pseudogenic_transcript : String := "pseudogenic_transcript"
def transcribed : List String :=
  [mRNA, transcript, tRNA, primary_transcript, rRNA, miRNA, snoRNA, snRNA,
   SRP_RNA, lnc_RNA, pre_miRNA, RNase_MRP_RNA, pseudogenic_transcript]

def exon : String := "exon"
def intron : String := "intron"
def sub_transcribed : List String := [exon, intron]

def cds : String := "CDS"
def five_prime_UTR : String := "five_prime_UTR"
def three_prime_UTR : String := "three_prime_UTR"
def coding_info : List String := [cds, five_prime_UTR, three_prime_UTR]

def TSS : String := "TSS"
def TTS : String := "TTS"
def start_codon : String := "start_codon"
def stop_codon : String := "stop_codon"
def donor_splice_site : String := "donor_splice_site"
def acceptor_splice_site : String := "acceptor_splice_site"
def trans_donor_splice_site : String := "trans_donor_splice_site"
def trans_acceptor_splice_site : String := "trans_acceptor_splice_site"
-- source name: point_annotations
def point_marks : List String :=
  [TSS, TTS, start_codon, stop_codon, donor_splice_site, acceptor_splice_site,
   trans_donor_splice_site, trans_acceptor_splice_site]

def region : String := "region"
def chromosome : String := "chromosome"
def supercontig : String := "supercontig"
def regions : List String := [region, chromosome, supercontig]

def match' : String := "match"
def cDNA_match : String := "cDNA_match"
def ignorable : List String := [match', cDNA_match]

def error : String := "error"
def status_coding : String := "status_coding"
def status_intron : String := "status_intron"
def status_five_prime_UTR : String := "status_five_prime_UTR"
def status_three_prime_UTR : String := "status_three_prime_UTR"
def status_intergenic : String := "status_intergenic"
def statuses : List String :=
  [status_coding, status_intron, status_five_prime_UTR, status_three_prime_UTR,
   status_intergenic]

def on_sequence : List String := sub_transcribed ++ coding_info ++ point_marks

def known : List String :=
  gene_level ++ transcribed ++ sub_transcribed ++ coding_info ++ point_marks ++
  regions ++ ignorable ++ [error] ++ statuses

/-- `skipable = self.gffkey.regions + self.gffkey.ignorable` as computed in
`AnnotatedGenome.useful_gff_entries`. -/
def skipable : List String := regions ++ ignorable

end GK

/-! ## Python exceptions that the modelled code can raise -/

inductive PyErr where
  | keyError : PyErr
  | valueError : PyErr
  | stopIteration : PyErr
  | attributeError : PyErr
  | assertionError : PyErr
deriving DecidableEq, Repr

deriving instance DecidableEq for Except

/-! ## IDMaker -/

/-- State of an `IDMaker`.  The source field `prefix` is renamed `pfx`
(the original word is unusable as an identifier here); `_seen` is a Python
set used only through membership tests, modelled as a list. -/
structure IDMaker where
  counter : Nat
  pfx : String
  seen : List String
  width : Nat
deriving DecidableEq, Repr

/-- Zero padding performed by the format string in `IDMaker._fmt_id`
(`'{}{:0W}'.format(prefix, counter)` pads the decimal rendering of the
counter with zeros on the left up to width `W`). -/
def zeroPad (w : Nat) (s : String) : String :=
  String.mk (List.replicate (w - s.length) '0') ++ s

/-- `IDMaker._fmt_id`. -/
def fmt_id (m : IDMaker) : String := m.pfx ++ zeroPad m.width (toString m.counter)

/-- `IDMaker._new_id`.  Note that the freshly formatted id is added to
`_seen` and the counter advanced, but the id is NOT checked against
`_seen` before being returned. -/
def new_id (m : IDMaker) : String × IDMaker :=
  let nid := fmt_id m
  (nid, { m with seen := nid :: m.seen, counter := m.counter + 1 })

/-- `IDMaker.next_unique_id`.  (`str(suggestion)` is the identity here since
suggestions are already strings.) -/
def next_unique_id (m : IDMaker) (suggestion : Option String) : String × IDMaker :=
  match suggestion with
  | some s => if s ∉ m.seen then (s, { m with seen := s :: m.seen }) else new_id m
  | none => new_id m

/-! ## GFF records (shape provided by the external `gffhelper` reader) -/

/-- One validated GFF record, following the input-record shape of the spec:
`type`, id (`get_ID()`), parent ids (`get_Parent()`), seqid, 1-based
inclusive start/end, strand, frame.  `score` and `source` are carried by the
real records but never influence any modelled behaviour (score is parsed in
a `try/except` and only stored), so they are not modelled. -/
structure GffEntry where
  type : String
  entryId : String
  parents : List String
  seqid : String
  start : Int
  fend : Int
  strand : String
  frame : String
deriving DecidableEq, Repr

/-- `AnnotatedGenome.useful_gff_entries`: raises `ValueError` at the first
record whose type is outside the known vocabulary, drops skipable records.
(The Python generator is lazy; this eager model agrees with it whenever the
error can fire before any group is consumed, in particular on streams whose
types are all known, the only case the claims quantify over.) -/
def useful_gff_entries : List GffEntry → Except PyErr (List GffEntry)
  | [] => .ok []
  | e :: rest =>
    if e.type ∉ GK.known then .error .valueError
    else
      match useful_gff_entries rest with
      | .error err => .error err
      | .ok r => if e.type ∈ GK.skipable then .ok r else .ok (e :: r)

/-- The `for entry in reader` loop of `AnnotatedGenome.group_gff_by_gene`:
a record of type `'gene'` (the literal string, not the gene-level category)
ends the current group and starts a new one. -/
def groupLoop (cur : List GffEntry) : List GffEntry → List (List GffEntry)
  | [] => [cur]
  | e :: rest =>
    if e.type = GK.gene then cur :: groupLoop [e] rest
    else groupLoop (cur ++ [e]) rest

/-- `AnnotatedGenome.group_gff_by_gene`.  `gene_group = [next(reader)]`
raises `StopIteration` on an empty filtered stream (surfacing as
`RuntimeError` under PEP 479); the groups are otherwise produced by
`groupLoop`. -/
def group_gff_by_gene (entries : List GffEntry) : Except PyErr (List (List GffEntry)) :=
  match useful_gff_entries entries with
  | .error err => .error err
  | .ok [] => .error .stopIteration
  | .ok (e0 :: rest) => .ok (groupLoop [e0] rest)

/-! ## StructuredFeature and Transcribed -/

/-- A `StructuredFeature`.  The source field `end` is renamed `fend`
(reserved word).  `score`, `source` and the three boolean flags are carried
by the Python object but influence none of the modelled operations, so they
are dropped; `super_loci` is a back-reference to the (single) owning locus
and is represented implicitly: every feature in a modelled state belongs to
that state's SuperLoci, so the `same_gene` identity checks of
`fully_overlaps` / `is_contained_in` are true. -/
structure SF where
  id : String
  type : String
  start : Int
  fend : Int
  seqid : String
  strand : String
  frame : String
  transcripts : List String
deriving DecidableEq, Repr

/-- `StructuredFeature.py_start`. -/
def py_start (f : SF) : Int := f.start - 1

/-- `StructuredFeature.py_end`. -/
def py_end (f : SF) : Int := f.fend

/-- `StructuredFeature.fully_overlaps`: equality of type, start, end, seqid,
strand and frame (plus `same_gene`, true within one modelled locus). -/
def fully_overlaps (a b : SF) : Bool :=
  a.type == b.type && a.start == b.start && a.fend == b.fend &&
  a.seqid == b.seqid && a.strand == b.strand && a.frame == b.frame

/-- `StructuredFeature.is_contained_in`: equal seqid/strand/frame (plus
`same_gene`) and coordinates within. -/
def is_contained_in (a b : SF) : Bool :=
  a.seqid == b.seqid && a.strand == b.strand && a.frame == b.frame &&
  decide (a.start ≥ b.start) && decide (a.fend ≤ b.fend)

/-- `StructuredFeature.is_plus_strand` (raises `ValueError` on strands other
than `+`/`-`). -/
def is_plus_strand (f : SF) : Except PyErr Bool :=
  if f.strand = "+" then .ok true
  else if f.strand = "-" then .ok false
  else .error .valueError

/-- A `Transcribed` (transcript).  `super_loci` back-reference implicit as
for `SF`. -/
structure Transcribed where
  id : String
  type : String
  features : List String
deriving DecidableEq, Repr

/-- `Transcribed.link_to_feature`. -/
def link_to_feature (t : Transcribed) (fid : String) : Transcribed :=
  { t with features := t.features ++ [fid] }

/-- `Transcribed.remove_feature`: `pop(index(fid))` removes the first
occurrence (`List.erase`; the ValueError of a missing id is unreachable in
the modelled flows, where removal follows a matching link). -/
def remove_feature (t : Transcribed) (fid : String) : Transcribed :=
  { t with features := t.features.erase fid }

/-- The overlap-relevant projection of a feature: everything except the
`transcripts` link list (which `fully_overlaps` ignores and which is the
only field the merge operations rewrite). -/
structure Shape where
  key : String
  type : String
  start : Int
  fend : Int
  seqid : String
  strand : String
  frame : String
deriving DecidableEq, Repr

def SF.shape (f : SF) : Shape :=
  ⟨f.id, f.type, f.start, f.fend, f.seqid, f.strand, f.frame⟩

/-- `fully_overlaps` expressed on shapes. -/
def shapeOverlap (a b : Shape) : Bool :=
  a.type == b.type && a.start == b.start && a.fend == b.fend &&
  a.seqid == b.seqid && a.strand == b.strand && a.frame == b.frame

/-! ## Dict primitives (association lists in insertion order) -/

def lookupF (l : List SF) (k : String) : Option SF := l.find? (fun f => f.id == k)

def lookupT (l : List Transcribed) (k : String) : Option Transcribed :=
  l.find? (fun t => t.id == k)

/-- Update the value stored under key `k` (no-op when the key is absent; in
the source a missing key raises `KeyError`, which is unreachable at the
modelled call sites, where the key was just found or just inserted). -/
def updateT (l : List Transcribed) (k : String) (g : Transcribed → Transcribed) :
    List Transcribed :=
  l.map fun t => if t.id == k then g t else t

def updateF (l : List SF) (k : String) (g : SF → SF) : List SF :=
  l.map fun f => if f.id == k then g f else f

/-- Python `d[t.id] = t` on a dict: replace in place or append. -/
def dictSetT (l : List Transcribed) (t : Transcribed) : List Transcribed :=
  if l.any (fun x => x.id == t.id) then l.map (fun x => if x.id == t.id then t else x)
  else l ++ [t]

def dictSetF (l : List SF) (e : SF) : List SF :=
  if l.any (fun f => f.id == e.id) then l.map (fun f => if f.id == e.id then e else f)
  else l ++ [e]

/-! ## SuperLoci state for `collapse_identical_features` -/

structure SLc where
  features : List SF
  transcripts : List Transcribed
deriving DecidableEq, Repr

/-- `StructuredFeature.link_to_transcript_and_back` acting on a collapse
state: the transcript gains the feature id, the feature gains the
transcript id. -/
def sl_link_back (sl : SLc) (fk tid : String) : SLc :=
  { sl with
    transcripts := updateT sl.transcripts tid (link_to_feature · fk),
    features := updateF sl.features fk
      (fun f => { f with transcripts := f.transcripts ++ [tid] }) }

/-- `StructuredFeature.de_link_from_transcript` acting on a collapse state. -/
def sl_de_link (sl : SLc) (fk tid : String) : SLc :=
  { sl with
    transcripts := updateT sl.transcripts tid (remove_feature · fk),
    features := updateF sl.features fk
      (fun f => { f with transcripts := f.transcripts.erase tid }) }

/-- `StructuredFeature.merge`: every transcript linked to `ok`'s feature
(snapshot of its link list) is relinked to `pk`'s feature and unlinked from
`ok`'s. -/
def sl_merge (sl : SLc) (pk ok : String) : SLc :=
  match lookupF sl.features ok with
  | none => sl
  | some fo => fo.transcripts.foldl (fun s tid => sl_de_link (sl_link_back s pk tid) ok tid) sl

/-- `features.pop(o_key)`. -/
def popF (sl : SLc) (k : String) : SLc :=
  { sl with features := sl.features.filter (fun f => !(f.id == k)) }

/-- The inner `for j in range(i+1, len(feature_keys))` loop of
`collapse_identical_features`: merge and pop every later feature that fully
overlaps the pivot.  (The source holds a live reference to the pivot; we
look it up afresh each step, which agrees because merging rewrites only the
pivot's `transcripts` list and the pivot is never popped.) -/
def collapseInner (sl : SLc) (pk : String) : List String → SLc
  | [] => sl
  | ok :: rest =>
    let sl' :=
      match lookupF sl.features pk, lookupF sl.features ok with
      | some fp, some fo => if fully_overlaps fp fo then popF (sl_merge sl pk ok) ok else sl
      | _, _ => sl
    collapseInner sl' pk rest

/-- The outer `while i < len(features) - 1` loop.  The first argument is
fuel: `i` grows by one per pass while the feature dict never grows, so
`features.length` passes always reach the loop's exit condition (the
theorems below never rely on fuel exhaustion: the no-overlap invariant is
proved for every sufficiently fueled unfolding). -/
def collapseLoopF : Nat → SLc → Nat → SLc
  | 0, sl, _ => sl
  | fuel + 1, sl, i =>
    if i < sl.features.length - 1 then
      let fkeys := pySorted (sl.features.map (·.id))
      collapseLoopF fuel (collapseInner sl (fkeys.getD i "") (fkeys.drop (i + 1))) (i + 1)
    else sl

/-- `SuperLoci.collapse_identical_features`. -/
def collapse_identical_features (sl : SLc) : SLc :=
  collapseLoopF sl.features.length sl 0

/-- No two features of the state with distinct ids fully overlap (stated on
shapes, the overlap-relevant projection): the post-condition of one collapse
run. -/
def NoOverlapState (sl : SLc) : Prop :=
  ∀ a ∈ sl.features.map SF.shape, ∀ b ∈ sl.features.map SF.shape,
    a.key ≠ b.key → shapeOverlap a b = false

/-- Invariant of the outer collapse loop: every feature whose id lies among
the first `i` sorted keys overlaps no other feature of the state. -/
def CollapseInv (sl : SLc) (i : Nat) : Prop :=
  ∀ a ∈ sl.features.map SF.shape,
    a.key ∈ (pySorted (sl.features.map (·.id))).take i →
    ∀ b ∈ sl.features.map SF.shape, b.key ≠ a.key → shapeOverlap a b = false

/-! ## SuperLoci state for `maybe_reconstruct_exons` -/

structure SLR where
  features : List SF
  transcripts : List Transcribed
  feature_ider : IDMaker
deriving DecidableEq, Repr

/-- `StructuredFeature.clone` (with `copy_transcripts=True`): fresh id from
the genome's feature ider, relink every transcript of the template to the
clone, copy all remaining attributes. -/
def clone (sl : SLR) (f : SF) : SLR × SF :=
  let p := next_unique_id sl.feature_ider none
  let trs := f.transcripts.foldl (fun ts tid => updateT ts tid (link_to_feature · p.1))
    sl.transcripts
  ({ sl with feature_ider := p.2, transcripts := trs }, { f with id := p.1 })

/-- `StructuredFeature.reconstruct_exon`. -/
def reconstruct_exon (sl : SLR) (f : SF) : SLR × SF :=
  let p := clone sl f
  (p.1, { p.2 with type := GK.exon })

/-- `SuperLoci.exons`. -/
def exonsOf (l : List SF) : List SF := l.filter (fun f => f.type == GK.exon)

/-- `SuperLoci.coding_info_features`. -/
def coding_info_features (l : List SF) : List SF :=
  l.filter (fun f => decide (f.type ∈ GK.coding_info))

/-- `SuperLoci.maybe_reconstruct_exons`: for every coding-info feature not
contained in any exon of the pre-existing snapshot, reconstruct an exon;
then insert the new exons into the feature dict. -/
def maybe_reconstruct_exons (sl : SLR) : SLR :=
  let exons := exonsOf sl.features
  let coding := coding_info_features sl.features
  let p := coding.foldl
    (fun (acc : SLR × List SF) f =>
      if exons.any (fun e => is_contained_in f e) then acc
      else
        let q := reconstruct_exon acc.1 f
        (q.1, acc.2 ++ [q.2]))
    (sl, [])
  p.2.foldl (fun s e => { s with features := dictSetF s.features e }) p.1

/-! ## SuperLoci state for `StructuredFeature.add_data` (ingestion) -/

structure SLA where
  slId : String
  transcripts : List Transcribed
  dummy : Option String
  feature_ider : IDMaker
  transcript_ider : IDMaker
deriving DecidableEq, Repr

/-- `SuperLoci.dummy_transcript`: return the cached dummy transcript's id,
creating and registering it on first use. -/
def dummy_transcript (sl : SLA) : SLA × String :=
  match sl.dummy with
  | some d => (sl, d)
  | none =>
    let p := next_unique_id sl.transcript_ider none
    ({ sl with transcript_ider := p.2, dummy := some p.1,
               transcripts := dictSetT sl.transcripts ⟨p.1, "", []⟩ }, p.1)

/-- `StructuredFeature.link_to_transcript_and_back`:
`self.super_loci.transcripts[transcript_id]` raises `KeyError` when
`transcript_id` is `None` (no string key equals `None`) or missing;
otherwise the transcript gains the feature id and the feature gains the
transcript id. -/
def link_to_transcript_and_back (sl : SLA) (f : SF) (tid : Option String) :
    Except PyErr (SLA × SF) :=
  match tid with
  | none => .error .keyError
  | some t =>
    match lookupT sl.transcripts t with
    | none => .error .keyError
    | some _ =>
      .ok ({ sl with transcripts := updateT sl.transcripts t (link_to_feature · f.id) },
           { f with transcripts := f.transcripts ++ [t] })

/-- The `for transcript_id in new_transcripts` loop of
`StructuredFeature.add_data`. -/
def parentsLoop (sl : SLA) (f : SF) : List String → Except PyErr (SLA × SF)
  | [] => .ok (sl, f)
  | tid :: rest =>
    match lookupT sl.transcripts tid with
    | some _ =>
      let sl1 := { sl with transcripts := updateT sl.transcripts tid (link_to_feature · f.id) }
      match link_to_transcript_and_back sl1 f (some tid) with
      | .error e => .error e
      | .ok q => parentsLoop q.1 q.2 rest
    | none =>
      if tid = sl.slId then
        let p := dummy_transcript sl
        let sl2 := { p.1 with transcripts := updateT p.1.transcripts p.2 (link_to_feature · f.id) }
        match link_to_transcript_and_back sl2 f (some p.2) with
        | .error e => .error e
        | .ok q => parentsLoop q.1 q.2 rest
      else
        -- unresolved parent: mark the feature as error, set new_t_id = None,
        -- log a warning ... and then still call link_to_transcript_and_back
        match link_to_transcript_and_back sl { f with type := GK.error } none with
        | .error e => .error e
        | .ok q => parentsLoop q.1 q.2 rest

/-- `StructuredFeature.add_data`.  Sets id (via the feature ider with the
GFF id as suggestion), type, start, end, strand, seqid (frame keeps its
default `'.'`); marks the feature `error` when the record declares no
parents; then resolves each declared parent. -/
def add_data (sl : SLA) (entry : GffEntry) : Except PyErr (SLA × SF) :=
  let p := next_unique_id sl.feature_ider (some entry.entryId)
  let sl1 := { sl with feature_ider := p.2 }
  let f : SF :=
    { id := p.1, type := entry.type, start := entry.start, fend := entry.fend,
      strand := entry.strand, seqid := entry.seqid, frame := ".", transcripts := [] }
  let f := if entry.parents.isEmpty then { f with type := GK.error } else f
  parentsLoop sl1 f entry.parents

/-! ## Interval partitioner (`organize_and_split_features`)

The `intervaltree` library is external to the repository; it is modelled by
its documented semantics: `tree[b:e] = f` stores the half-open interval
`[b, e)` with payload `f` (rejecting null intervals), `split_overlaps`
splits every stored interval at every boundary point of an overlapping
interval (equivalently: at every stored boundary point strictly inside it),
and `sorted(tree)` orders intervals by begin, then end. -/

structure Ival where
  lo : Int
  hi : Int
  data : SF
deriving DecidableEq, Repr

def boundaryPoints (ivs : List Ival) : List Int := ivs.flatMap (fun iv => [iv.lo, iv.hi])

/-- The consecutive pairs of the cut sequence `a :: cs ++ [b]`. -/
def chainPairs (a : Int) : List Int → Int → List (Int × Int)
  | [], b => [(a, b)]
  | c :: cs, b => (a, c) :: chainPairs c cs b

/-- Split one stored interval at every global boundary point strictly inside
it. -/
def splitOne (ps : List Int) (iv : Ival) : List Ival :=
  let cuts := List.insertionSort (· ≤ ·)
    ((ps.filter (fun p => decide (iv.lo < p ∧ p < iv.hi))).dedup)
  (chainPairs iv.lo cuts iv.hi).map (fun ab => ⟨ab.1, ab.2, iv.data⟩)

/-- `intervaltree.IntervalTree.split_overlaps`. -/
def split_overlaps (ivs : List Ival) : List Ival :=
  ivs.flatMap (splitOne (boundaryPoints ivs))

/-- `sorted(tree)`: intervals ordered by `(begin, end)`. -/
def ivalLe (a b : Ival) : Prop := a.lo < b.lo ∨ (a.lo = b.lo ∧ a.hi ≤ b.hi)

instance : DecidableRel ivalLe := fun a b => by unfold ivalLe; infer_instance

/-- The `for interval in intervals` loop of `organize_and_split_features`:
consecutive intervals sharing a begin coordinate join the current cluster
(`out[-1].begin == interval.begin`; `out` is never empty, so the default
of `getLastD` is never consulted). -/
def clusterLoop (out : List Ival) : List Ival → List (List Ival)
  | [] => [out]
  | iv :: rest =>
    if (out.getLastD iv).lo = iv.lo then clusterLoop (out ++ [iv]) rest
    else out :: clusterLoop [iv] rest

/-- `TranscriptInterpreter.organize_and_split_features`, taking the
transcript's features directly (the source fetches them from the owning
SuperLoci by id).  `next(intervals)` on an empty tree raises
`StopIteration`. -/
def organize_and_split_features (fs : List SF) : Except PyErr (List (List Ival)) :=
  let ivs := fs.map (fun f => (⟨py_start f, py_end f, f⟩ : Ival))
  match List.insertionSort ivalLe (split_overlaps ivs) with
  | [] => .error .stopIteration
  | i0 :: rest => .ok (clusterLoop [i0] rest)

/-! ## Transcript status machine -/

/-- `TranscriptInterpreter.get_status`. -/
def get_status (last_seen pre_intron : String) : Except PyErr (String × String) :=
  if last_seen ∈ GK.statuses then .ok (last_seen, pre_intron)
  else if last_seen = GK.TSS then .ok (GK.status_five_prime_UTR, GK.status_five_prime_UTR)
  else if last_seen = GK.start_codon then .ok (GK.status_coding, GK.status_coding)
  else if last_seen = GK.stop_codon then
    .ok (GK.status_three_prime_UTR, GK.status_three_prime_UTR)
  else if last_seen = GK.TTS then .ok (GK.status_intergenic, GK.status_intergenic)
  else if last_seen = GK.donor_splice_site then .ok (GK.status_intron, pre_intron)
  else if last_seen = GK.acceptor_splice_site then .ok (pre_intron, pre_intron)
  else .error .valueError

/-- Python set equality between the observed type strings and a literal
set. -/
def sameSet (a b : List String) : Bool :=
  a.all (fun x => decide (x ∈ b)) && b.all (fun x => decide (x ∈ a))

/-- `TranscriptInterpreter.possible_types`. -/
def possible_types (intervals : List Ival) : Except PyErr (List String) :=
  let observed := intervals.map (fun x => x.data.type)
  if intervals.length ≠ 1 ∧ intervals.length ≠ 2 then .error .valueError
  else if sameSet observed [GK.exon, GK.five_prime_UTR] || sameSet observed [GK.five_prime_UTR]
  then .ok [GK.five_prime_UTR]
  else if sameSet observed [GK.exon, GK.three_prime_UTR] || sameSet observed [GK.three_prime_UTR]
  then .ok [GK.three_prime_UTR]
  else if sameSet observed [GK.exon] then .ok [GK.five_prime_UTR, GK.three_prime_UTR]
  else if sameSet observed [GK.cds, GK.exon] || sameSet observed [GK.cds] then .ok [GK.cds]
  else .error .valueError

/-- Python `==` between a tuple and a string: always `False`, no exception.
In `interpret_transition` the source compares `status_in`, which is the
un-unpacked PAIR returned by `get_status` (contrast `decode_raw_features`,
which unpacks the same call), against the string `self.gffkey.five_prime_UTR`. -/
def tupleEqStr (_p : String × String) (_s : String) : Bool := false

/-- `TranscriptInterpreter.interpret_transition`.  Because the guard
compares a tuple with a string (see `tupleEqStr`), the entire 5'-UTR branch
is unreachable and the function always returns an empty feature list once
`get_status` and the two `possible_types` calls succeed.  Were the branch
ever entered, its body would raise before synthesizing anything
(`cds_template.begin` is not an attribute of StructuredFeature, and
`cds_template.frame == 1` compares a string with an int), which the dead
arm records as an error value. -/
def interpret_transition (last_feature : SF) (pre_intron_status : String)
    (ivals_before ivals_after : List Ival) (_plus_strand : Bool) :
    Except PyErr (List SF) :=
  match get_status last_feature.type pre_intron_status with
  | .error e => .error e
  | .ok status_in =>
    match possible_types ivals_before with
    | .error e => .error e
    | .ok _before_types =>
      match possible_types ivals_after with
      | .error e => .error e
      | .ok _after_types =>
        if tupleEqStr status_in GK.five_prime_UTR then .error .attributeError
        else .ok []

/-! # Theorems

## Order-theoretic facts about the modelled Python string order -/

theorem charListLe_cons_iff {x y : Char} {xs ys : List Char} :
    charListLe (x :: xs) (y :: ys) = true ↔
      (x.val.toNat < y.val.toNat ∨
        (x.val.toNat = y.val.toNat ∧ charListLe xs ys = true)) := by
  simp only [charListLe]
  by_cases h1 : x.val.toNat < y.val.toNat
  · simp [h1]
  · by_cases h2 : y.val.toNat < x.val.toNat
    · simp [h1, h2]; omega
    · have h3 : x.val.toNat = y.val.toNat := by omega
      simp [h1, h2, h3]

theorem charListLe_total (a b : List Char) :
    charListLe a b = true ∨ charListLe b a = true := by
  induction a generalizing b with
  | nil => left; cases b <;> rfl
  | cons x xs ih =>
    cases b with
    | nil => right; rfl
    | cons y ys =>
      rw [charListLe_cons_iff, charListLe_cons_iff]
      rcases Nat.lt_trichotomy x.val.toNat y.val.toNat with h | h | h
      · left; left; exact h
      · rcases ih ys with hc | hc
        · left; right; exact ⟨h, hc⟩
        · right; right; exact ⟨h.symm, hc⟩
      · right; left; exact h

theorem charListLe_trans (a b c : List Char) (hab : charListLe a b = true)
    (hbc : charListLe b c = true) : charListLe a c = true := by
  induction a generalizing b c with
  | nil => cases c <;> rfl
  | cons x xs ih =>
    cases b with
    | nil => simp [charListLe] at hab
    | cons y ys =>
      cases c with
      | nil => simp [charListLe] at hbc
      | cons z zs =>
        rw [charListLe_cons_iff] at hab hbc ⊢
        rcases hab with h | ⟨h, hrec⟩ <;> rcases hbc with h' | ⟨h', hrec'⟩
        · left; omega
        · left; omega
        · left; omega
        · right; exact ⟨by omega, ih ys zs hrec hrec'⟩

theorem charListLe_antisymm (a b : List Char) (hab : charListLe a b = true)
    (hba : charListLe b a = true) : a = b := by
  induction a generalizing b with
  | nil =>
    cases b with
    | nil => rfl
    | cons y ys => simp [charListLe] at hba
  | cons x xs ih =>
    cases b with
    | nil => simp [charListLe] at hab
    | cons y ys =>
      rw [charListLe_cons_iff] at hab hba
      rcases hab with h | ⟨h, hrec⟩
      · rcases hba with h' | ⟨h', _⟩ <;> (exfalso; omega)
      · rcases hba with h' | ⟨h', hrec'⟩
        · exfalso; omega
        · have hxy : x = y := Char.ext (UInt32.ext h)
          rw [hxy, ih ys hrec hrec']

instance : IsTotal String strle := ⟨fun a b => charListLe_total a.data b.data⟩

instance : IsTrans String strle :=
  ⟨fun a b c hab hbc => charListLe_trans a.data b.data c.data hab hbc⟩

instance : IsAntisymm String strle :=
  ⟨fun a b hab hba => by
    have h := charListLe_antisymm a.data b.data hab hba
    cases a; cases b; exact congrArg String.mk h⟩

/-! ## C1: IDMaker id uniqueness -/

/-- C1.  The claim states that ids returned by one `IDMaker` are pairwise
distinct.  The code violates it: on a fresh `IDMaker(prefix='ftr')`,
suggesting `"ftr000000"` returns it verbatim, and the next synthesized id
(`prefix` plus zero-padded counter `0`) is again `"ftr000000"` because
`_new_id` never checks its formatted id against `_seen`. -/
theorem C1_idmaker_duplicate_id :
    (next_unique_id (⟨0, "ftr", [], 6⟩ : IDMaker) (some "ftr000000")).1 = "ftr000000" ∧
    (next_unique_id (next_unique_id (⟨0, "ftr", [], 6⟩ : IDMaker) (some "ftr000000")).2
        none).1 = "ftr000000" := by
  constructor <;> rfl

/-! ## C2: unresolved parent in add_data -/

/-- C2.  The claim states that a feature whose declared parent matches
neither a transcript nor the SuperLocus id is marked `error`, left unlinked,
and `add_data` returns normally.  The code instead raises: the unresolved
branch sets `new_t_id = None` and then unconditionally calls
`link_to_transcript_and_back(None)`, whose `transcripts[None]` lookup raises
`KeyError`. -/
theorem C2_unresolved_parent_raises :
    add_data
      (⟨"g1", [⟨"t1", "mRNA", []⟩], none, ⟨0, "ftr", [], 6⟩, ⟨0, "trx", [], 6⟩⟩ : SLA)
      (⟨"CDS", "cds1", ["bogus"], "chr1", 10, 20, "+", "0"⟩ : GffEntry)
      = .error .keyError := by
  rfl

/-! ## C5: exon reconstruction coverage -/

/-- C5.  The claim states that after `maybe_reconstruct_exons` every
CDS/5'UTR/3'UTR feature is contained in some exon of the SuperLocus.  The
code violates it through the `IDMaker` defect of C1: with the feature ider's
counter at 0 and an existing feature id `"ftr000000"` (previously issued as
a suggestion), the exon reconstructed for the uncovered CDS `"f"` is minted
the id `"ftr000000"` and its dict insertion overwrites the exon that covered
CDS `"g"`, leaving `"g"` (still owned, still a coding-info feature) contained
in no exon. -/
theorem C5_reconstruction_leaves_cds_uncovered :
    (⟨"g", "CDS", 10, 20, "s", "+", ".", []⟩ : SF) ∈
      (maybe_reconstruct_exons
        (⟨[⟨"ftr000000", "exon", 1, 200, "s", "+", ".", []⟩,
           ⟨"g", "CDS", 10, 20, "s", "+", ".", []⟩,
           ⟨"f", "CDS", 500, 600, "s", "+", ".", []⟩], [],
          ⟨0, "ftr", ["ftr000000", "g", "f"], 6⟩⟩ : SLR)).features ∧
    (⟨"g", "CDS", 10, 20, "s", "+", ".", []⟩ : SF).type ∈ GK.coding_info ∧
    ∀ e ∈ (maybe_reconstruct_exons
        (⟨[⟨"ftr000000", "exon", 1, 200, "s", "+", ".", []⟩,
           ⟨"g", "CDS", 10, 20, "s", "+", ".", []⟩,
           ⟨"f", "CDS", 500, 600, "s", "+", ".", []⟩], [],
          ⟨0, "ftr", ["ftr000000", "g", "f"], 6⟩⟩ : SLR)).features,
      e.type = GK.exon → is_contained_in (⟨"g", "CDS", 10, 20, "s", "+", ".", []⟩ : SF) e = false := by
  refine ⟨by decide, by decide, by decide⟩

/-! ## C6 and C7: interpret_transition's 5'UTR branch is dead code -/

/-- C6.  The claim states that with current status 5'UTR, a 5'UTR-before /
CDS-after cluster pair makes `interpret_transition` check adjacency and
frame and synthesize exactly one `start_codon` feature.  The code does none
of this: `status_in` is the un-unpacked `(status, pre_intron)` pair, the
guard `status_in == gffkey.five_prime_UTR` compares that tuple with a string
(always `False` in Python), and the call returns an empty feature tuple.
Here: last emitted feature of type TSS (so the intended status is 5'UTR), an
adjacent 5'UTR cluster before and CDS cluster after — and no feature is
produced, no assertion raised. -/
theorem C6_start_codon_branch_unreachable :
    interpret_transition (⟨"p0", "TSS", 1, 1, "s", "+", ".", []⟩ : SF)
      GK.status_five_prime_UTR
      [⟨0, 10, ⟨"u1", "five_prime_UTR", 1, 10, "s", "+", ".", []⟩⟩]
      [⟨10, 20, ⟨"c1", "CDS", 11, 20, "s", "+", "0", []⟩⟩]
      true = .ok [] := by
  rfl

/-- C7.  The claim states that with current status 5'UTR, a 5'UTR / 5'UTR
cluster pair makes `interpret_transition` demand a positive gap and
synthesize a donor and an acceptor splice site.  As in C6 the branch is
unreachable: with a gap present (flanks 1-10 and 21-30), the call returns an
empty feature tuple instead of the two splice sites. -/
theorem C7_intron_branch_unreachable :
    interpret_transition (⟨"p0", "TSS", 1, 1, "s", "+", ".", []⟩ : SF)
      GK.status_five_prime_UTR
      [⟨0, 10, ⟨"u1", "five_prime_UTR", 1, 10, "s", "+", ".", []⟩⟩]
      [⟨20, 30, ⟨"u2", "five_prime_UTR", 21, 30, "s", "+", ".", []⟩⟩]
      true = .ok [] := by
  rfl

/-! ## Grouping lemmas for C3 and C10 -/

theorem useful_gff_entries_all_skipable (entries : List GffEntry)
    (h : ∀ e ∈ entries, e.type ∈ GK.known ∧ e.type ∈ GK.skipable) :
    useful_gff_entries entries = .ok [] := by
  induction entries with
  | nil => rfl
  | cons e rest ih =>
    have he := h e (by simp)
    have hrest := ih (fun x hx => h x (by simp [hx]))
    simp [useful_gff_entries, he.1, he.2, hrest]

theorem useful_gff_entries_id (entries : List GffEntry)
    (h : ∀ e ∈ entries, e.type ∈ GK.known ∧ e.type ∉ GK.skipable) :
    useful_gff_entries entries = .ok entries := by
  induction entries with
  | nil => rfl
  | cons e rest ih =>
    have he := h e (by simp)
    have hrest := ih (fun x hx => h x (by simp [hx]))
    simp [useful_gff_entries, he.1, he.2, hrest]

theorem groupLoop_flatten (rest : List GffEntry) :
    ∀ cur, (groupLoop cur rest).flatten = cur ++ rest := by
  induction rest with
  | nil => intro cur; simp [groupLoop]
  | cons e rs ih =>
    intro cur
    unfold groupLoop
    by_cases h : e.type = GK.gene
    · simp [h, ih]
    · simp [h, ih]

theorem groupLoop_first (rest : List GffEntry) :
    ∀ cur, ∃ ext gs, groupLoop cur rest = (cur ++ ext) :: gs := by
  induction rest with
  | nil => intro cur; exact ⟨[], [], by simp [groupLoop]⟩
  | cons e rs ih =>
    intro cur
    unfold groupLoop
    by_cases h : e.type = GK.gene
    · exact ⟨[], groupLoop [e] rs, by simp [h]⟩
    · obtain ⟨ext, gs, hx⟩ := ih (cur ++ [e])
      exact ⟨[e] ++ ext, gs, by simp [h, hx]⟩

theorem groupLoop_nonempty (rest : List GffEntry) :
    ∀ cur, cur ≠ [] → ∀ g ∈ groupLoop cur rest, g ≠ [] := by
  induction rest with
  | nil =>
    intro cur hcur g hg
    have hg' : g = cur := by simpa [groupLoop] using hg
    exact hg' ▸ hcur
  | cons e rs ih =>
    intro cur hcur g hg
    unfold groupLoop at hg
    by_cases h : e.type = GK.gene
    · simp [h] at hg
      rcases hg with hg | hg
      · simpa [hg]
      · exact ih [e] (by simp) g hg
    · simp [h] at hg
      exact ih (cur ++ [e]) (by simp) g hg

theorem groupLoop_tail_starts_gene (rest : List GffEntry) :
    ∀ cur, ∀ g ∈ (groupLoop cur rest).tail, ∃ e, g.head? = some e ∧ e.type = GK.gene := by
  induction rest with
  | nil => intro cur g hg; simp [groupLoop] at hg
  | cons e rs ih =>
    intro cur g hg
    unfold groupLoop at hg
    by_cases h : e.type = GK.gene
    · simp [h] at hg
      obtain ⟨ext, gs, hx⟩ := groupLoop_first rs [e]
      rw [hx, List.mem_cons] at hg
      rcases hg with hg | hg
      · exact ⟨e, by simp [hg], h⟩
      · have := ih [e] g
        rw [hx] at this
        exact this hg
    · simp [h] at hg
      exact ih (cur ++ [e]) g hg

theorem groupLoop_no_gene_in_group_tail (rest : List GffEntry) :
    ∀ cur, (∀ x ∈ cur.tail, x.type ≠ GK.gene) →
      ∀ g ∈ groupLoop cur rest, ∀ x ∈ g.tail, x.type ≠ GK.gene := by
  induction rest with
  | nil =>
    intro cur hcur g hg
    simp [groupLoop] at hg
    simpa [hg] using hcur
  | cons e rs ih =>
    intro cur hcur g hg
    unfold groupLoop at hg
    by_cases h : e.type = GK.gene
    · simp [h] at hg
      rcases hg with hg | hg
      · simpa [hg] using hcur
      · exact ih [e] (by simp) g hg
    · simp [h] at hg
      refine ih (cur ++ [e]) ?_ g hg
      intro x hx
      cases cur with
      | nil => simp at hx
      | cons c cs =>
        simp at hx
        rcases hx with hx | hx
        · exact hcur x hx
        · rw [hx]; exact h

/-! ## C10: empty filtered stream -/

/-- C10.  If every input record is skipable (or the stream is empty), the
filtered reader is empty and `group_gff_by_gene` fails on its very first
step (`next(reader)` raises) instead of yielding zero groups. -/
theorem C10_group_gff_raises_on_empty_stream (entries : List GffEntry)
    (h : ∀ e ∈ entries, e.type ∈ GK.known ∧ e.type ∈ GK.skipable) :
    group_gff_by_gene entries = .error .stopIteration := by
  unfold group_gff_by_gene
  rw [useful_gff_entries_all_skipable entries h]

/-- Witness for C10 at a concrete one-record skipable stream. -/
theorem C10_witness :
    group_gff_by_gene [(⟨"region", "r1", [], "s", 1, 5, "+", "."⟩ : GffEntry)]
      = .error .stopIteration :=
  C10_group_gff_raises_on_empty_stream
    [(⟨"region", "r1", [], "s", 1, 5, "+", "."⟩ : GffEntry)] (by decide)

/-! ## C3: grouping splits only at the literal type 'gene' -/

/-- C3 counterexample.  The claim states every gene-level-category record
(gene, super_gene, ncRNA_gene, pseudogene) starts a new group; but the loop
tests `entry.type == 'gene'` literally, so a `pseudogene` record is absorbed
into the current group: the two-record stream below yields ONE group, not
two. -/
theorem C3_counterexample_pseudogene_absorbed :
    group_gff_by_gene
        [(⟨"gene", "g1", [], "s", 1, 100, "+", "."⟩ : GffEntry),
         (⟨"pseudogene", "p1", [], "s", 200, 300, "+", "."⟩ : GffEntry)]
      = .ok [[(⟨"gene", "g1", [], "s", 1, 100, "+", "."⟩ : GffEntry),
              (⟨"pseudogene", "p1", [], "s", 200, 300, "+", "."⟩ : GffEntry)]] ∧
    (⟨"pseudogene", "p1", [], "s", 200, 300, "+", "."⟩ : GffEntry).type ∈ GK.gene_level ∧
    ([[(⟨"gene", "g1", [], "s", 1, 100, "+", "."⟩ : GffEntry),
       (⟨"pseudogene", "p1", [], "s", 200, 300, "+", "."⟩ : GffEntry)]] ≠
     [[(⟨"gene", "g1", [], "s", 1, 100, "+", "."⟩ : GffEntry)],
      [(⟨"pseudogene", "p1", [], "s", 200, 300, "+", "."⟩ : GffEntry)]]) := by
  refine ⟨by decide, by decide, by decide⟩

/-- C3 amended.  For every nonempty stream of known, non-skipable records,
`group_gff_by_gene` yields groups in input order whose concatenation is the
input; a new group starts exactly at each record whose type is the literal
string `'gene'` (records of the other gene-level categories are absorbed
like any non-gene record): every group is nonempty, every group after the
first begins with a `'gene'` record, and no group contains a `'gene'` record
after its head. -/
theorem C3_amended_grouping (e0 : GffEntry) (es : List GffEntry)
    (h : ∀ e ∈ e0 :: es, e.type ∈ GK.known ∧ e.type ∉ GK.skipable) :
    ∃ gs, group_gff_by_gene (e0 :: es) = .ok gs ∧
      gs.flatten = e0 :: es ∧
      (∀ g ∈ gs, g ≠ []) ∧
      (∀ g ∈ gs.tail, ∃ e, g.head? = some e ∧ e.type = GK.gene) ∧
      (∀ g ∈ gs, ∀ x ∈ g.tail, x.type ≠ GK.gene) := by
  refine ⟨groupLoop [e0] es, ?_, ?_, ?_, ?_, ?_⟩
  · unfold group_gff_by_gene
    rw [useful_gff_entries_id _ h]
  · simpa using groupLoop_flatten es [e0]
  · exact groupLoop_nonempty es [e0] (by simp)
  · exact groupLoop_tail_starts_gene es [e0]
  · exact groupLoop_no_gene_in_group_tail es [e0] (by simp)

/-- Witness for C3's amended theorem at a concrete two-gene stream. -/
theorem C3_amended_witness :
    ∃ gs, group_gff_by_gene
        [(⟨"gene", "g1", [], "s", 1, 100, "+", "."⟩ : GffEntry),
         (⟨"mRNA", "m1", ["g1"], "s", 1, 100, "+", "."⟩ : GffEntry),
         (⟨"gene", "g2", [], "s", 300, 400, "+", "."⟩ : GffEntry)]
      = .ok gs ∧
      gs.flatten =
        [(⟨"gene", "g1", [], "s", 1, 100, "+", "."⟩ : GffEntry),
         (⟨"mRNA", "m1", ["g1"], "s", 1, 100, "+", "."⟩ : GffEntry),
         (⟨"gene", "g2", [], "s", 300, 400, "+", "."⟩ : GffEntry)] ∧
      (∀ g ∈ gs, g ≠ []) ∧
      (∀ g ∈ gs.tail, ∃ e, g.head? = some e ∧ e.type = GK.gene) ∧
      (∀ g ∈ gs, ∀ x ∈ g.tail, x.type ≠ GK.gene) :=
  C3_amended_grouping (⟨"gene", "g1", [], "s", 1, 100, "+", "."⟩ : GffEntry)
    [(⟨"mRNA", "m1", ["g1"], "s", 1, 100, "+", "."⟩ : GffEntry),
     (⟨"gene", "g2", [], "s", 300, 400, "+", "."⟩ : GffEntry)] (by decide)

/-! ## C9: double-link of a feature to its matching transcript -/

theorem lookupT_updateT_self (l : List Transcribed) (k : String)
    (g : Transcribed → Transcribed) (hg : ∀ t, (g t).id = t.id) :
    lookupT (updateT l k g) k = (lookupT l k).map g := by
  induction l with
  | nil => rfl
  | cons t ts ih =>
    simp only [lookupT, updateT, List.map_cons] at *
    by_cases h : t.id = k
    · rw [if_pos (by simpa using h)]
      rw [List.find?_cons_of_pos _ (by simp [hg, h]),
          List.find?_cons_of_pos _ (by simpa using h)]
      rfl
    · rw [if_neg (by simpa using h)]
      rw [List.find?_cons_of_neg _ (by simpa using h),
          List.find?_cons_of_neg _ (by simpa using h)]
      exact ih

/-- C9.  When a feature record's single declared parent matches an existing
transcript, `add_data` succeeds, the transcript's feature list gains the new
feature's id TWICE (once via the direct `transcript.link_to_feature` call
and once more inside `link_to_transcript_and_back`), while the feature's own
transcript list gains the transcript id exactly once. -/
theorem C9_matching_parent_links_feature_twice (sl : SLA) (entry : GffEntry)
    (tid : String) (tr : Transcribed)
    (hp : entry.parents = [tid]) (ht : lookupT sl.transcripts tid = some tr) :
    ∃ q : SLA × SF, add_data sl entry = .ok q ∧
      lookupT q.1.transcripts tid =
        some { tr with features := tr.features ++ [q.2.id, q.2.id] } ∧
      q.2.transcripts = [tid] := by
  have hgl : ∀ t : Transcribed, (link_to_feature t
      (next_unique_id sl.feature_ider (some entry.entryId)).1).id = t.id := by
    intro t; rfl
  have key : ∀ l : List Transcribed,
      lookupT (updateT l tid (fun t => link_to_feature t
        (next_unique_id sl.feature_ider (some entry.entryId)).1)) tid
      = (lookupT l tid).map (fun t => link_to_feature t
        (next_unique_id sl.feature_ider (some entry.entryId)).1) :=
    fun l => lookupT_updateT_self l tid _ hgl
  unfold add_data parentsLoop link_to_transcript_and_back
  rw [hp]
  simp only [List.isEmpty_cons, Bool.false_eq_true, if_false]
  rw [ht]
  dsimp only
  rw [key sl.transcripts, ht]
  dsimp only [Option.map_some']
  unfold parentsLoop
  refine ⟨_, rfl, ?_, rfl⟩
  dsimp only
  rw [key _, key sl.transcripts, ht]
  simp [link_to_feature]

/-- Witness for C9 at a concrete one-transcript locus. -/
theorem C9_witness :
    ∃ q : SLA × SF,
      add_data
        (⟨"g1", [⟨"t1", "mRNA", ["old"]⟩], none, ⟨0, "ftr", [], 6⟩, ⟨0, "trx", [], 6⟩⟩ : SLA)
        (⟨"CDS", "cds1", ["t1"], "chr1", 10, 20, "+", "0"⟩ : GffEntry) = .ok q ∧
      lookupT q.1.transcripts "t1" =
        some { id := "t1", type := "mRNA", features := ["old"] ++ [q.2.id, q.2.id] } ∧
      q.2.transcripts = ["t1"] :=
  C9_matching_parent_links_feature_twice
    (⟨"g1", [⟨"t1", "mRNA", ["old"]⟩], none, ⟨0, "ftr", [], 6⟩, ⟨0, "trx", [], 6⟩⟩ : SLA)
    (⟨"CDS", "cds1", ["t1"], "chr1", 10, 20, "+", "0"⟩ : GffEntry)
    "t1" ⟨"t1", "mRNA", ["old"]⟩ rfl rfl

/-! ## C4: interval splitting -/

theorem cuts_sorted (ps : List Int) (q : Int → Bool) :
    List.Pairwise (· < ·) (List.insertionSort (· ≤ ·) ((ps.filter q).dedup)) := by
  have hs : List.Sorted (· ≤ ·) (List.insertionSort (· ≤ ·) ((ps.filter q).dedup)) :=
    List.sorted_insertionSort _ _
  have hn : (List.insertionSort (· ≤ ·) ((ps.filter q).dedup)).Nodup :=
    (List.perm_insertionSort _ _).nodup_iff.mpr (List.nodup_dedup _)
  exact (List.Pairwise.and hs hn).imp (fun h => lt_of_le_of_ne h.1 h.2)

theorem cuts_mem (ps : List Int) (q : Int → Bool) (x : Int) :
    x ∈ List.insertionSort (· ≤ ·) ((ps.filter q).dedup) ↔ (x ∈ ps ∧ q x = true) := by
  rw [(List.perm_insertionSort (· ≤ ·) ((ps.filter q).dedup)).mem_iff,
      List.mem_dedup, List.mem_filter]

theorem chainPairs_spec (cs : List Int) :
    ∀ a b : Int, List.Pairwise (· < ·) cs → (∀ c ∈ cs, a < c ∧ c < b) → a < b →
      ∀ q ∈ chainPairs a cs b,
        (a ≤ q.1 ∧ q.1 < q.2 ∧ q.2 ≤ b) ∧
        (q.1 = a ∨ q.1 ∈ cs) ∧ (q.2 = b ∨ q.2 ∈ cs) ∧
        (∀ p ∈ cs, ¬ (q.1 < p ∧ p < q.2)) := by
  induction cs with
  | nil =>
    intro a b _ _ hab q hq
    have hq' : q = (a, b) := by simpa [chainPairs] using hq
    subst hq'
    exact ⟨⟨le_refl a, hab, le_refl b⟩, Or.inl rfl, Or.inl rfl, by simp⟩
  | cons c cs ih =>
    intro a b hpw hmem hab q hq
    obtain ⟨hc_lt, hpw'⟩ := List.pairwise_cons.mp hpw
    have hac : a < c := (hmem c (by simp)).1
    have hcb : c < b := (hmem c (by simp)).2
    rw [chainPairs, List.mem_cons] at hq
    rcases hq with hq | hq
    · subst hq
      refine ⟨⟨le_refl a, hac, le_of_lt hcb⟩, Or.inl rfl, Or.inr (by simp), ?_⟩
      intro p hp
      rw [List.mem_cons] at hp
      rcases hp with hp | hp
      · subst hp; exact fun h => lt_irrefl p h.2
      · exact fun h => absurd h.2 (not_lt.mpr (le_of_lt (hc_lt p hp)))
    · have hmem' : ∀ x ∈ cs, c < x ∧ x < b :=
        fun x hx => ⟨hc_lt x hx, (hmem x (by simp [hx])).2⟩
      obtain ⟨⟨h1, h2, h3⟩, h4, h5, h6⟩ := ih c b hpw' hmem' hcb q hq
      refine ⟨⟨le_of_lt (lt_of_lt_of_le hac h1), h2, h3⟩, ?_, ?_, ?_⟩
      · rcases h4 with h4 | h4
        · exact Or.inr (by simp [h4])
        · exact Or.inr (by simp [h4])
      · rcases h5 with h5 | h5
        · exact Or.inl h5
        · exact Or.inr (by simp [h5])
      · intro p hp
        rw [List.mem_cons] at hp
        rcases hp with hp | hp
        · subst hp; exact fun h => absurd h.1 (not_lt.mpr h1)
        · exact h6 p hp

theorem splitOne_spec (ps : List Int) (iv : Ival) (hlt : iv.lo < iv.hi) :
    ∀ c ∈ splitOne ps iv,
      c.data = iv.data ∧ c.lo < c.hi ∧
      (c.lo = iv.lo ∨ c.lo ∈ ps) ∧ (c.hi = iv.hi ∨ c.hi ∈ ps) ∧
      iv.lo ≤ c.lo ∧ c.hi ≤ iv.hi ∧
      (∀ p ∈ ps, ¬ (c.lo < p ∧ p < c.hi)) := by
  intro c hc
  unfold splitOne at hc
  rw [List.mem_map] at hc
  obtain ⟨q, hq, hqc⟩ := hc
  set cuts := List.insertionSort (· ≤ ·)
    ((ps.filter (fun p => decide (iv.lo < p ∧ p < iv.hi))).dedup) with hcuts
  have hmemc : ∀ x ∈ cuts, iv.lo < x ∧ x < iv.hi := by
    intro x hx
    have := (cuts_mem ps _ x).mp hx
    exact of_decide_eq_true this.2
  have hspec := chainPairs_spec cuts iv.lo iv.hi (cuts_sorted ps _) hmemc hlt q hq
  obtain ⟨⟨b1, b2, b3⟩, e1, e2, intf⟩ := hspec
  subst hqc
  refine ⟨rfl, b2, ?_, ?_, b1, b3, ?_⟩
  · rcases e1 with e1 | e1
    · exact Or.inl e1
    · exact Or.inr ((cuts_mem ps _ q.1).mp e1).1
  · rcases e2 with e2 | e2
    · exact Or.inl e2
    · exact Or.inr ((cuts_mem ps _ q.2).mp e2).1
  · intro p hp hcon
    by_cases hin : iv.lo < p ∧ p < iv.hi
    · exact intf p ((cuts_mem ps _ p).mpr ⟨hp, decide_eq_true hin⟩) hcon
    · rw [not_and_or] at hin
      rcases hin with hin | hin
      · exact hin (lt_of_le_of_lt b1 hcon.1)
      · exact hin (lt_of_lt_of_le hcon.2 b3)

theorem split_overlaps_spec (ivs : List Ival) (h : ∀ iv ∈ ivs, iv.lo < iv.hi) :
    ∀ c ∈ split_overlaps ivs,
      c.lo < c.hi ∧ c.lo ∈ boundaryPoints ivs ∧ c.hi ∈ boundaryPoints ivs ∧
      (∀ p ∈ boundaryPoints ivs, ¬ (c.lo < p ∧ p < c.hi)) := by
  intro c hc
  unfold split_overlaps at hc
  rw [List.mem_flatMap] at hc
  obtain ⟨iv, hiv, hc⟩ := hc
  obtain ⟨_, b2, e1, e2, _, _, intf⟩ := splitOne_spec (boundaryPoints ivs) iv (h iv hiv) c hc
  have hbl : iv.lo ∈ boundaryPoints ivs := by
    unfold boundaryPoints; rw [List.mem_flatMap]; exact ⟨iv, hiv, by simp⟩
  have hbh : iv.hi ∈ boundaryPoints ivs := by
    unfold boundaryPoints; rw [List.mem_flatMap]; exact ⟨iv, hiv, by simp⟩
  refine ⟨b2, ?_, ?_, intf⟩
  · rcases e1 with e1 | e1
    · exact e1 ▸ hbl
    · exact e1
  · rcases e2 with e2 | e2
    · exact e2 ▸ hbh
    · exact e2

/-- After splitting, any two stored intervals are identical in extent or
disjoint. -/
theorem split_overlaps_no_partial_overlap (ivs : List Ival)
    (h : ∀ iv ∈ ivs, iv.lo < iv.hi) :
    ∀ a ∈ split_overlaps ivs, ∀ b ∈ split_overlaps ivs,
      (a.lo = b.lo ∧ a.hi = b.hi) ∨ a.hi ≤ b.lo ∨ b.hi ≤ a.lo := by
  intro a ha b hb
  obtain ⟨ap, abl, abh, aintf⟩ := split_overlaps_spec ivs h a ha
  obtain ⟨bp, bbl, bbh, bintf⟩ := split_overlaps_spec ivs h b hb
  by_cases hd1 : a.hi ≤ b.lo
  · exact Or.inr (Or.inl hd1)
  by_cases hd2 : b.hi ≤ a.lo
  · exact Or.inr (Or.inr hd2)
  push_neg at hd1 hd2
  left
  have hlo : a.lo = b.lo := by
    rcases lt_trichotomy a.lo b.lo with hx | hx | hx
    · exact absurd ⟨hx, hd1⟩ (aintf b.lo bbl)
    · exact hx
    · exact absurd ⟨hx, hd2⟩ (bintf a.lo abl)
  refine ⟨hlo, ?_⟩
  rcases lt_trichotomy a.hi b.hi with hx | hx | hx
  · exact absurd ⟨by rw [← hlo]; exact ap, hx⟩ (bintf a.hi abh)
  · exact hx
  · exact absurd ⟨by rw [hlo]; exact bp, hx⟩ (aintf b.hi bbh)

/-- C4.  Two CDS features spanning 1-based inclusive [1,100] and [50,150]
(converted by `py_start`/`py_end` to half-open [0,100) and [49,150)) are
partitioned into exactly three clusters in ascending coordinate order —
[0,49) (bases 1-49) holding only the first feature, [49,100) (bases 50-100)
holding both, [100,150) (bases 101-150) holding only the second — and in
general, after splitting, no two stored intervals partially overlap: any two
are identical in extent or disjoint. -/
theorem C4_interval_partitioner :
    (organize_and_split_features
        [(⟨"c1", "CDS", 1, 100, "s", "+", "0", []⟩ : SF),
         (⟨"c2", "CDS", 50, 150, "s", "+", "0", []⟩ : SF)]
      = .ok
        [[⟨0, 49, ⟨"c1", "CDS", 1, 100, "s", "+", "0", []⟩⟩],
         [⟨49, 100, ⟨"c1", "CDS", 1, 100, "s", "+", "0", []⟩⟩,
          ⟨49, 100, ⟨"c2", "CDS", 50, 150, "s", "+", "0", []⟩⟩],
         [⟨100, 150, ⟨"c2", "CDS", 50, 150, "s", "+", "0", []⟩⟩]]) ∧
    (∀ ivs : List Ival, (∀ iv ∈ ivs, iv.lo < iv.hi) →
      ∀ a ∈ split_overlaps ivs, ∀ b ∈ split_overlaps ivs,
        (a.lo = b.lo ∧ a.hi = b.hi) ∨ a.hi ≤ b.lo ∨ b.hi ≤ a.lo) :=
  ⟨by decide, split_overlaps_no_partial_overlap⟩

/-- Witness for C4's quantified part at a concrete singleton input. -/
theorem C4_witness :
    ((0 : Int) = 0 ∧ (5 : Int) = 5) ∨ (5 : Int) ≤ 0 ∨ (5 : Int) ≤ 0 := by
  have h := C4_interval_partitioner.2
    [(⟨0, 5, ⟨"x", "exon", 1, 5, "s", "+", ".", []⟩⟩ : Ival)] (by decide)
    (⟨0, 5, ⟨"x", "exon", 1, 5, "s", "+", ".", []⟩⟩ : Ival) (by decide)
    (⟨0, 5, ⟨"x", "exon", 1, 5, "s", "+", ".", []⟩⟩ : Ival) (by decide)
  exact h

/-! ## C8: collapse_identical_features is idempotent.

Plan: (A) after one run, no two distinct-id features fully overlap
(`NoOverlapState`), proved through the loop invariant `CollapseInv`;
(B) on a state with no overlapping pair, the loop is the identity.
Together these give idempotence. -/

theorem shapeOverlap_iff (a b : Shape) :
    shapeOverlap a b = true ↔
      (a.type = b.type ∧ a.start = b.start ∧ a.fend = b.fend ∧
       a.seqid = b.seqid ∧ a.strand = b.strand ∧ a.frame = b.frame) := by
  simp [shapeOverlap, and_assoc]

theorem shapeOverlap_symm (a b : Shape) : shapeOverlap a b = shapeOverlap b a := by
  by_cases h : shapeOverlap a b = true
  · obtain ⟨h1, h2, h3, h4, h5, h6⟩ := (shapeOverlap_iff a b).mp h
    rw [h, (shapeOverlap_iff b a).mpr ⟨h1.symm, h2.symm, h3.symm, h4.symm, h5.symm, h6.symm⟩]
  · by_cases h' : shapeOverlap b a = true
    · obtain ⟨h1, h2, h3, h4, h5, h6⟩ := (shapeOverlap_iff b a).mp h'
      exact absurd ((shapeOverlap_iff a b).mpr
        ⟨h1.symm, h2.symm, h3.symm, h4.symm, h5.symm, h6.symm⟩) h
    · rw [Bool.not_eq_true] at h h'
      rw [h, h']

theorem fully_overlaps_eq_shape (f g : SF) :
    fully_overlaps f g = shapeOverlap f.shape g.shape := rfl

theorem find?_filter_of_imp {α : Type} (l : List α) (p q : α → Bool)
    (h : ∀ x, p x = true → q x = true) : (l.filter q).find? p = l.find? p := by
  induction l with
  | nil => rfl
  | cons a l ih =>
    by_cases hp : p a = true
    · rw [List.filter_cons, if_pos (h a hp), List.find?_cons_of_pos _ hp,
          List.find?_cons_of_pos _ hp]
    · rw [List.filter_cons]
      by_cases hq : q a = true
      · rw [if_pos hq, List.find?_cons_of_neg _ (by simpa using hp),
            List.find?_cons_of_neg _ (by simpa using hp)]
        exact ih
      · rw [if_neg hq, List.find?_cons_of_neg _ (by simpa using hp)]
        exact ih

theorem find?_none_filter {α : Type} (l : List α) (p q : α → Bool)
    (h : l.find? p = none) : (l.filter q).find? p = none := by
  rw [List.find?_eq_none] at h ⊢
  intro x hx
  exact h x (List.mem_of_mem_filter hx)

theorem find?_key_of_mem (L : List Shape) (hnd : (L.map Shape.key).Nodup)
    (a : Shape) (ha : a ∈ L) : L.find? (fun s => s.key == a.key) = some a := by
  induction L with
  | nil => cases ha
  | cons s L ih =>
    rw [List.map_cons, List.nodup_cons] at hnd
    rcases List.mem_cons.mp ha with h | h
    · subst h
      exact List.find?_cons_of_pos _ (by simp)
    · have hkey : ¬ s.key = a.key := fun he =>
        hnd.1 (he ▸ List.mem_map_of_mem Shape.key h)
      rw [List.find?_cons_of_neg _ (by simpa using hkey)]
      exact ih hnd.2 h

theorem find?_mem_ne_none (L : List Shape) (b : Shape) (hb : b ∈ L) :
    L.find? (fun s => s.key == b.key) ≠ none := by
  intro h
  exact (List.find?_eq_none.mp h) b hb (by simp)

theorem updateF_map_shape (l : List SF) (k : String) (g : SF → SF)
    (hg : ∀ f, (g f).shape = f.shape) :
    (updateF l k g).map SF.shape = l.map SF.shape := by
  unfold updateF
  rw [List.map_map]
  apply List.map_congr_left
  intro f _
  by_cases h : f.id = k
  · simp [h, hg]
  · simp [h]

theorem sl_link_back_shapes (sl : SLc) (fk tid : String) :
    (sl_link_back sl fk tid).features.map SF.shape = sl.features.map SF.shape :=
  updateF_map_shape _ _ _ (fun _ => rfl)

theorem sl_de_link_shapes (sl : SLc) (fk tid : String) :
    (sl_de_link sl fk tid).features.map SF.shape = sl.features.map SF.shape :=
  updateF_map_shape _ _ _ (fun _ => rfl)

theorem merge_fold_shapes (tids : List String) : ∀ (sl : SLc) (pk ok : String),
    ((tids.foldl (fun s tid => sl_de_link (sl_link_back s pk tid) ok tid) sl).features.map
      SF.shape) = sl.features.map SF.shape := by
  induction tids with
  | nil => intro sl pk ok; rfl
  | cons t ts ih =>
    intro sl pk ok
    rw [List.foldl_cons, ih, sl_de_link_shapes, sl_link_back_shapes]

theorem sl_merge_shapes (sl : SLc) (pk ok : String) :
    (sl_merge sl pk ok).features.map SF.shape = sl.features.map SF.shape := by
  unfold sl_merge
  cases h : lookupF sl.features ok with
  | none => rfl
  | some fo => exact merge_fold_shapes _ _ _ _

theorem popF_shapes (sl : SLc) (k : String) :
    (popF sl k).features.map SF.shape
      = (sl.features.map SF.shape).filter (fun s => !(s.key == k)) := by
  unfold popF
  rw [List.filter_map]
  rfl

theorem find?_shape_map (l : List SF) (k : String) :
    (l.map SF.shape).find? (fun s => s.key == k) = (lookupF l k).map SF.shape := by
  induction l with
  | nil => rfl
  | cons f fs ih =>
    unfold lookupF at *
    rw [List.map_cons]
    have hkey : ((SF.shape f).key == k) = (f.id == k) := rfl
    by_cases h : f.id = k
    · have e : (f.id == k) = true := by simpa using h
      simp only [List.find?, hkey, e]
      rfl
    · have e : (f.id == k) = false := by simpa using h
      simp only [List.find?, hkey, e]
      exact ih

theorem collapseInner_shapes (oks : List String) : ∀ (sl : SLc) (pk : String),
    ∃ R : List String, (∀ r ∈ R, r ∈ oks) ∧
      (collapseInner sl pk oks).features.map SF.shape
        = (sl.features.map SF.shape).filter (fun s => !(R.contains s.key)) := by
  induction oks with
  | nil =>
    intro sl pk
    refine ⟨[], by simp, ?_⟩
    have : ∀ s : Shape, (!(List.contains ([] : List String) s.key)) = true := by
      intro s; rfl
    rw [List.filter_eq_self.mpr (fun s _ => this s)]
    rfl
  | cons ok rest ih =>
    intro sl pk
    rcases h1 : lookupF sl.features pk with _ | fp
    · obtain ⟨R, hsub, heq⟩ := ih sl pk
      refine ⟨R, fun r hr => List.mem_cons_of_mem _ (hsub r hr), ?_⟩
      rw [collapseInner, h1]
      exact heq
    · rcases h2 : lookupF sl.features ok with _ | fo
      · obtain ⟨R, hsub, heq⟩ := ih sl pk
        refine ⟨R, fun r hr => List.mem_cons_of_mem _ (hsub r hr), ?_⟩
        rw [collapseInner, h1, h2]
        exact heq
      · by_cases hov : fully_overlaps fp fo = true
        · obtain ⟨R, hsub, heq⟩ := ih (popF (sl_merge sl pk ok) ok) pk
          refine ⟨ok :: R, ?_, ?_⟩
          · intro r hr
            rcases List.mem_cons.mp hr with hr | hr
            · exact hr ▸ List.mem_cons_self _ _
            · exact List.mem_cons_of_mem _ (hsub r hr)
          · rw [collapseInner, h1, h2]
            dsimp only
            rw [if_pos hov, heq, popF_shapes, sl_merge_shapes, List.filter_filter]
            apply List.filter_congr
            intro s _
            show ((!(List.contains R s.key)) && !(s.key == ok)) = !(List.elem s.key (ok :: R))
            rw [List.elem_cons]
            cases hc : s.key == ok
            · simp
            · simp
        · obtain ⟨R, hsub, heq⟩ := ih sl pk
          refine ⟨R, fun r hr => List.mem_cons_of_mem _ (hsub r hr), ?_⟩
          rw [collapseInner, h1, h2]
          dsimp only
          rw [if_neg (by simpa using hov)]
          exact heq

theorem collapseInner_removes (oks : List String) : ∀ (sl : SLc) (pk k : String)
    (a b : Shape), oks.Nodup → pk ∉ oks → k ∈ oks →
    (sl.features.map SF.shape).find? (fun s => s.key == pk) = some a →
    (sl.features.map SF.shape).find? (fun s => s.key == k) = some b →
    shapeOverlap a b = true →
    ((collapseInner sl pk oks).features.map SF.shape).find? (fun s => s.key == k) = none := by
  induction oks with
  | nil => intro sl pk k a b _ _ hk; cases hk
  | cons ok rest ih =>
    intro sl pk k a b hnd hpk hk hfa hfb hov
    have hpkok : pk ≠ ok := fun he => hpk (he ▸ List.mem_cons_self _ _)
    have hpkrest : pk ∉ rest := fun h => hpk (List.mem_cons_of_mem _ h)
    rcases List.mem_cons.mp hk with hke | hkr
    · -- k is the head: the merge fires and k's feature is popped for good
      subst hke
      rw [find?_shape_map] at hfa hfb
      rcases Option.map_eq_some'.mp hfa with ⟨fp, hfp, hfpa⟩
      rcases Option.map_eq_some'.mp hfb with ⟨fo, hfo, hfob⟩
      have hful : fully_overlaps fp fo = true := by
        rw [fully_overlaps_eq_shape, hfpa, hfob]; exact hov
      rw [collapseInner, hfp, hfo]
      dsimp only
      rw [if_pos hful]
      obtain ⟨R, _, heq⟩ := collapseInner_shapes rest (popF (sl_merge sl pk k) k) pk
      rw [heq]
      apply find?_none_filter
      rw [popF_shapes, sl_merge_shapes, List.find?_eq_none]
      intro x hx
      have hxf := (List.mem_filter.mp hx).2
      simp only [Bool.not_eq_true'] at hxf
      simpa using hxf
    · -- k occurs later; the head step preserves the pk- and k-entries
      have hkok : k ≠ ok := by
        intro he
        subst he
        exact (List.nodup_cons.mp hnd).1 hkr
      rcases h1 : lookupF sl.features pk with _ | fp
      · rw [collapseInner, h1]
        exact ih sl pk k a b (List.nodup_cons.mp hnd).2 hpkrest hkr hfa hfb hov
      · rcases h2 : lookupF sl.features ok with _ | fo
        · rw [collapseInner, h1, h2]
          exact ih sl pk k a b (List.nodup_cons.mp hnd).2 hpkrest hkr hfa hfb hov
        · by_cases hov' : fully_overlaps fp fo = true
          · rw [collapseInner, h1, h2]
            dsimp only
            rw [if_pos hov']
            have hsh : (popF (sl_merge sl pk ok) ok).features.map SF.shape
                = (sl.features.map SF.shape).filter (fun s => !(s.key == ok)) := by
              rw [popF_shapes, sl_merge_shapes]
            refine ih _ pk k a b (List.nodup_cons.mp hnd).2 hpkrest hkr ?_ ?_ hov
            · rw [hsh, find?_filter_of_imp]
              · exact hfa
              · intro x hx
                have : x.key = pk := by simpa using hx
                simp [this, hpkok]
            · rw [hsh, find?_filter_of_imp]
              · exact hfb
              · intro x hx
                have : x.key = k := by simpa using hx
                simp [this, hkok]
          · rw [collapseInner, h1, h2]
            dsimp only
            rw [if_neg (by simpa using hov')]
            exact ih sl pk k a b (List.nodup_cons.mp hnd).2 hpkrest hkr hfa hfb hov

theorem pySorted_perm (l : List String) : (pySorted l).Perm l :=
  List.perm_insertionSort _ _

theorem pySorted_sorted (l : List String) : List.Sorted strle (pySorted l) :=
  List.sorted_insertionSort _ _

theorem pySorted_filter (l : List String) (q : String → Bool) :
    pySorted (l.filter q) = (pySorted l).filter q :=
  List.eq_of_perm_of_sorted
    ((pySorted_perm _).trans ((pySorted_perm l).filter q).symm)
    (pySorted_sorted _)
    (List.Sorted.filter q (pySorted_sorted l))

theorem take_filter_eq {α : Type} (l : List α) (q : α → Bool) (n : Nat)
    (h : ∀ x ∈ l.take n, q x = true) (hn : n ≤ l.length) :
    (l.filter q).take n = l.take n := by
  conv_lhs => rw [← List.take_append_drop n l]
  rw [List.filter_append, List.filter_eq_self.mpr h,
      List.take_append_eq_append_take, List.take_take, Nat.min_self, List.length_take]
  have h0 : n - min n l.length = 0 := by omega
  rw [h0, List.take_zero, List.append_nil]

theorem map_key_filter (L : List Shape) (q : String → Bool) :
    (L.filter (fun s => q s.key)).map Shape.key = (L.map Shape.key).filter q := by
  induction L with
  | nil => rfl
  | cons s L ih => cases h : q s.key <;> simp [List.filter_cons, h, ih]

theorem collapse_step (sl : SLc) (i : Nat)
    (hnd : (sl.features.map (fun f => f.id)).Nodup)
    (hi : i + 1 < sl.features.length)
    (hInv : CollapseInv sl i) :
    CollapseInv
      (collapseInner sl ((pySorted (sl.features.map (fun f => f.id))).getD i "")
        ((pySorted (sl.features.map (fun f => f.id))).drop (i + 1))) (i + 1) := by
  set keys := sl.features.map (fun f => f.id) with hkeys
  set fkeys := pySorted keys with hfkeys
  set pk := fkeys.getD i "" with hpk
  set oks := fkeys.drop (i + 1) with hoks
  set sl' := collapseInner sl pk oks with hsl'
  have hmapkey : (sl.features.map SF.shape).map Shape.key = keys := by
    rw [List.map_map]; rfl
  have hlenf : fkeys.length = sl.features.length := by
    rw [hfkeys, (pySorted_perm keys).length_eq, hkeys, List.length_map]
  have hiltf : i < fkeys.length := by omega
  have hi1le : i + 1 ≤ fkeys.length := by omega
  have hndf : fkeys.Nodup := (pySorted_perm keys).nodup_iff.mpr hnd
  have hpki : pk = fkeys[i] := by
    rw [hpk, List.getD_eq_getElem?_getD, List.getElem?_eq_getElem hiltf]
    rfl
  have hpk_take : pk ∈ fkeys.take (i + 1) := by
    rw [hpki, List.take_succ, List.getElem?_eq_getElem hiltf]
    exact List.mem_append.mpr (Or.inr (by simp))
  have hdisj : ∀ x ∈ fkeys.take (i + 1), x ∉ oks := by
    have hnd2 : (fkeys.take (i + 1) ++ fkeys.drop (i + 1)).Nodup := by
      rw [List.take_append_drop]; exact hndf
    intro x hx hxo
    exact (List.nodup_append.mp hnd2).2.2 hx hxo
  have hpk_not_oks : pk ∉ oks := hdisj pk hpk_take
  have hnd_oks : oks.Nodup := List.Nodup.sublist (List.drop_sublist _ _) hndf
  obtain ⟨R, hRsub, hshapes'⟩ := collapseInner_shapes oks sl pk
  have hkeys' : sl'.features.map (fun f => f.id) = keys.filter (fun x => !(R.contains x)) := by
    have h1 : sl'.features.map (fun f => f.id) = (sl'.features.map SF.shape).map Shape.key := by
      rw [List.map_map]; rfl
    rw [h1, hshapes']
    exact (map_key_filter (List.map SF.shape sl.features) (fun x => !(R.contains x))).trans
      (by rw [hmapkey])
  have hfkeys' : pySorted (sl'.features.map (fun f => f.id))
      = fkeys.filter (fun x => !(R.contains x)) := by
    rw [hkeys', pySorted_filter, hfkeys]
  have htake' : (fkeys.filter (fun x => !(R.contains x))).take (i + 1) = fkeys.take (i + 1) := by
    apply take_filter_eq _ _ _ ?_ hi1le
    intro x hx
    have hxR : x ∉ R := fun hr => hdisj x hx (hRsub x hr)
    have hc : R.contains x = false := by
      rw [Bool.eq_false_iff]
      intro hcc
      exact hxR (List.elem_iff.mp hcc)
    rw [hc]
    rfl
  unfold CollapseInv at hInv ⊢
  intro a ha hatake b hb hne
  have haS : a ∈ sl.features.map SF.shape := by
    rw [hshapes'] at ha; exact List.mem_of_mem_filter ha
  have hbS : b ∈ sl.features.map SF.shape := by
    rw [hshapes'] at hb; exact List.mem_of_mem_filter hb
  rw [hfkeys', htake', List.take_succ, List.getElem?_eq_getElem hiltf] at hatake
  rcases List.mem_append.mp hatake with hat | hat
  · exact hInv a haS hat b hbS hne
  · have hak : a.key = pk := by rw [hpki]; simpa using hat
    by_cases hbo : b.key ∈ oks
    · by_cases hovab : shapeOverlap a b = true
      · exfalso
        have hfa : (sl.features.map SF.shape).find? (fun s => s.key == pk) = some a := by
          rw [← hak]
          exact find?_key_of_mem _ (hmapkey ▸ hnd) a haS
        have hfb : (sl.features.map SF.shape).find? (fun s => s.key == b.key) = some b :=
          find?_key_of_mem _ (hmapkey ▸ hnd) b hbS
        have hrem := collapseInner_removes oks sl pk b.key a b hnd_oks hpk_not_oks hbo
          hfa hfb hovab
        exact find?_mem_ne_none _ b hb hrem
      · exact Bool.eq_false_iff.mpr hovab
    · have hbk_keys : b.key ∈ keys := hmapkey ▸ List.mem_map_of_mem Shape.key hbS
      have hbfk : b.key ∈ fkeys := ((pySorted_perm keys).mem_iff).mpr hbk_keys
      have hbsplit : b.key ∈ fkeys.take (i + 1) ++ fkeys.drop (i + 1) := by
        rw [List.take_append_drop]; exact hbfk
      rcases List.mem_append.mp hbsplit with hbt | hbt
      · rw [List.take_succ, List.getElem?_eq_getElem hiltf] at hbt
        rcases List.mem_append.mp hbt with hbt' | hbt'
        · rw [shapeOverlap_symm]
          exact hInv b hbS hbt' a haS (Ne.symm hne)
        · exfalso
          have hbk : b.key = pk := by rw [hpki]; simpa using hbt'
          exact hne (hbk.trans hak.symm)
      · exact absurd hbt hbo

theorem collapse_end (sl : SLc) (i : Nat)
    (hi : sl.features.length ≤ i + 1)
    (hInv : CollapseInv sl i) : NoOverlapState sl := by
  unfold NoOverlapState
  unfold CollapseInv at hInv
  intro a ha b hb hne
  set keys := sl.features.map (fun f => f.id) with hkeys
  set fkeys := pySorted keys with hfkeys
  have hmapkey : (sl.features.map SF.shape).map Shape.key = keys := by
    rw [List.map_map]; rfl
  have hlenf : fkeys.length = sl.features.length := by
    rw [hfkeys, (pySorted_perm keys).length_eq, hkeys, List.length_map]
  have key_split : ∀ s : Shape, s ∈ sl.features.map SF.shape →
      s.key ∈ fkeys.take i ∨ s.key ∈ fkeys.drop i := by
    intro s hs
    have h1 : s.key ∈ keys := hmapkey ▸ List.mem_map_of_mem Shape.key hs
    have h2 : s.key ∈ fkeys := ((pySorted_perm keys).mem_iff).mpr h1
    rw [← List.take_append_drop i fkeys] at h2
    exact List.mem_append.mp h2
  have hdroplen : (fkeys.drop i).length ≤ 1 := by
    rw [List.length_drop]; omega
  rcases key_split a ha with hat | hat
  · exact hInv a ha hat b hb (Ne.symm hne)
  · rcases key_split b hb with hbt | hbt
    · rw [shapeOverlap_symm]
      exact hInv b hb hbt a ha hne
    · exfalso
      apply hne
      cases hdl : fkeys.drop i with
      | nil => rw [hdl] at hat; cases hat
      | cons x xs =>
        have hlen2 : xs.length + 1 ≤ 1 := by
          have h3 := hdroplen
          rw [hdl] at h3
          simpa using h3
        have hxs : xs = [] := List.length_eq_zero.mp (by omega)
        subst hxs
        rw [hdl] at hat hbt
        have ha' : a.key = x := by simpa using hat
        have hb' : b.key = x := by simpa using hbt
        rw [ha', hb']

theorem collapseInner_keys (sl : SLc) (pk : String) (oks : List String) :
    ∃ q : String → Bool, (collapseInner sl pk oks).features.map (fun f => f.id)
      = (sl.features.map (fun f => f.id)).filter q := by
  obtain ⟨R, _, hsh⟩ := collapseInner_shapes oks sl pk
  refine ⟨fun x => !(R.contains x), ?_⟩
  have h1 : (collapseInner sl pk oks).features.map (fun f => f.id)
      = ((collapseInner sl pk oks).features.map SF.shape).map Shape.key := by
    rw [List.map_map]; rfl
  rw [h1, hsh]
  exact (map_key_filter (sl.features.map SF.shape) (fun x => !(R.contains x))).trans
    (by rw [List.map_map]; rfl)

theorem collapseLoopF_noOverlap (fuel : Nat) : ∀ (sl : SLc) (i : Nat),
    (sl.features.map (fun f => f.id)).Nodup →
    sl.features.length ≤ fuel + i + 1 →
    CollapseInv sl i →
    NoOverlapState (collapseLoopF fuel sl i) := by
  induction fuel with
  | zero =>
    intro sl i _ hlen hInv
    exact collapse_end sl i (by omega) hInv
  | succ fuel ih =>
    intro sl i hnd hlen hInv
    rw [collapseLoopF]
    by_cases hc : i < sl.features.length - 1
    · rw [if_pos hc]
      dsimp only
      have hi1 : i + 1 < sl.features.length := by omega
      obtain ⟨q, hk⟩ := collapseInner_keys sl
        ((pySorted (sl.features.map (fun f => f.id))).getD i "")
        ((pySorted (sl.features.map (fun f => f.id))).drop (i + 1))
      have hnd' := hk ▸ List.Nodup.filter q hnd
      have hlen' : (collapseInner sl
          ((pySorted (sl.features.map (fun f => f.id))).getD i "")
          ((pySorted (sl.features.map (fun f => f.id))).drop (i + 1))).features.length
          ≤ sl.features.length := by
        have h2 := congrArg List.length hk
        rw [List.length_map] at h2
        calc _ = ((sl.features.map (fun f => f.id)).filter q).length := h2
          _ ≤ (sl.features.map (fun f => f.id)).length := List.length_filter_le _ _
          _ = sl.features.length := List.length_map _ _
      exact ih _ (i + 1) hnd' (by omega) (collapse_step sl i hnd hi1 hInv)
    · rw [if_neg hc]
      exact collapse_end sl i (by omega) hInv

theorem pivot_not_in_drop (l : List String) (i : Nat) (hnd : l.Nodup) (hi : i < l.length) :
    l.getD i "" ∉ l.drop (i + 1) := by
  have hg : l.getD i "" = l[i] := by
    rw [List.getD_eq_getElem?_getD, List.getElem?_eq_getElem hi]; rfl
  have htk : l[i] ∈ l.take (i + 1) := by
    rw [List.take_succ, List.getElem?_eq_getElem hi]
    exact List.mem_append.mpr (Or.inr (by simp))
  have hnd2 : (l.take (i + 1) ++ l.drop (i + 1)).Nodup := by
    rw [List.take_append_drop]; exact hnd
  rw [hg]
  exact fun hmem => (List.nodup_append.mp hnd2).2.2 htk hmem

theorem collapseInner_fix (oks : List String) : ∀ (sl : SLc) (pk : String),
    pk ∉ oks → NoOverlapState sl → collapseInner sl pk oks = sl := by
  induction oks with
  | nil => intro sl pk _ _; rfl
  | cons ok rest ih =>
    intro sl pk hpk hno
    have hpkok : pk ≠ ok := fun he => hpk (he ▸ List.mem_cons_self _ _)
    have hpkrest : pk ∉ rest := fun h => hpk (List.mem_cons_of_mem _ h)
    rcases h1 : lookupF sl.features pk with _ | fp
    · rw [collapseInner, h1]
      exact ih sl pk hpkrest hno
    · rcases h2 : lookupF sl.features ok with _ | fo
      · rw [collapseInner, h1, h2]
        exact ih sl pk hpkrest hno
      · have hfp_mem : fp ∈ sl.features := List.mem_of_find?_eq_some h1
        have hfo_mem : fo ∈ sl.features := List.mem_of_find?_eq_some h2
        have hfp_id : fp.id = pk := by simpa using List.find?_some h1
        have hfo_id : fo.id = ok := by simpa using List.find?_some h2
        have hov : fully_overlaps fp fo = false := by
          rw [fully_overlaps_eq_shape]
          refine hno fp.shape (List.mem_map_of_mem _ hfp_mem)
            fo.shape (List.mem_map_of_mem _ hfo_mem) ?_
          show fp.id ≠ fo.id
          rw [hfp_id, hfo_id]
          exact hpkok
        rw [collapseInner, h1, h2]
        dsimp only
        rw [if_neg (by simp [hov])]
        exact ih sl pk hpkrest hno

theorem collapseLoopF_fix (fuel : Nat) : ∀ (sl : SLc) (i : Nat),
    (sl.features.map (fun f => f.id)).Nodup → NoOverlapState sl →
    collapseLoopF fuel sl i = sl := by
  induction fuel with
  | zero => intro sl i _ _; rfl
  | succ fuel ih =>
    intro sl i hnd hno
    rw [collapseLoopF]
    by_cases hc : i < sl.features.length - 1
    · rw [if_pos hc]
      dsimp only
      have hndf : (pySorted (sl.features.map (fun f => f.id))).Nodup :=
        (pySorted_perm _).nodup_iff.mpr hnd
      have hif : i < (pySorted (sl.features.map (fun f => f.id))).length := by
        have := (pySorted_perm (sl.features.map (fun f => f.id))).length_eq
        rw [List.length_map] at this
        omega
      rw [collapseInner_fix _ _ _ (pivot_not_in_drop _ i hndf hif) hno]
      exact ih sl (i + 1) hnd hno
    · rw [if_neg hc]

theorem collapseLoopF_keys (fuel : Nat) : ∀ (sl : SLc) (i : Nat),
    ((collapseLoopF fuel sl i).features.map (fun f => f.id)).Sublist
      (sl.features.map (fun f => f.id)) := by
  induction fuel with
  | zero => intro sl i; exact List.Sublist.refl _
  | succ fuel ih =>
    intro sl i
    rw [collapseLoopF]
    by_cases hc : i < sl.features.length - 1
    · rw [if_pos hc]
      dsimp only
      refine (ih _ (i + 1)).trans ?_
      obtain ⟨q, hk⟩ := collapseInner_keys sl _ _
      rw [hk]
      exact List.filter_sublist _
    · rw [if_neg hc]

/-- C8.  `collapse_identical_features` is idempotent: one run leaves a state
in which no two distinct features fully overlap (every sorted pivot removes
all later duplicates, and earlier pivots keep their guarantee as removals
only happen behind the pivot), and on such a state a second run performs no
merge and no pop, returning the state — feature map and transcript links —
unchanged. -/
theorem C8_collapse_idempotent (sl : SLc)
    (hnd : (sl.features.map (fun f => f.id)).Nodup) :
    collapse_identical_features (collapse_identical_features sl)
      = collapse_identical_features sl := by
  have hnd1 : ((collapse_identical_features sl).features.map (fun f => f.id)).Nodup :=
    List.Nodup.sublist (collapseLoopF_keys _ sl 0) hnd
  have hno1 : NoOverlapState (collapse_identical_features sl) := by
    unfold collapse_identical_features
    refine collapseLoopF_noOverlap _ sl 0 hnd (by omega) ?_
    unfold CollapseInv
    intro a _ hat
    rw [List.take_zero] at hat
    cases hat
  show collapseLoopF (collapse_identical_features sl).features.length
    (collapse_identical_features sl) 0 = collapse_identical_features sl
  exact collapseLoopF_fix _ _ 0 hnd1 hno1

/-- Witness for C8 at a concrete locus with two identical exon records
linked to one transcript. -/
theorem C8_witness :
    collapse_identical_features (collapse_identical_features
      (⟨[⟨"a", "exon", 1, 10, "s", "+", ".", ["t1"]⟩,
         ⟨"b", "exon", 1, 10, "s", "+", ".", ["t1"]⟩],
        [⟨"t1", "mRNA", ["a", "b"]⟩]⟩ : SLc))
      = collapse_identical_features
      (⟨[⟨"a", "exon", 1, 10, "s", "+", ".", ["t1"]⟩,
         ⟨"b", "exon", 1, 10, "s", "+", ".", ["t1"]⟩],
        [⟨"t1", "mRNA", ["a", "b"]⟩]⟩ : SLc) :=
  C8_collapse_idempotent
    (⟨[⟨"a", "exon", 1, 10, "s", "+", ".", ["t1"]⟩,
       ⟨"b", "exon", 1, 10, "s", "+", ".", ["t1"]⟩],
      [⟨"t1", "mRNA", ["a", "b"]⟩]⟩ : SLc) (by decide)
